import Mathlib

/-!
Verification of the warp-route / token-id derivation tool.

The Rust program (src/main.rs) derives two deterministic 32-byte
identifiers from a pair of 20-byte addresses and a decimals byte:

* `HexString<T>` — a wrapper over fixed byte arrays with hex text
  parsing/rendering and raw binary serialization;
* `get_warp_route_id` / `get_token_id` — SHA-256 hash chaining over
  fixed byte layouts;
* `format_token_id` — bech32m rendering with human-readable part
  `token_`.

Bytes are modelled as natural numbers (values produced by the code are
always < 256); byte strings as `List Nat`; Rust `&str` values as
`List Char`. Fallible Rust operations return `Option`.
-/

/-! ## Hex codec (model of the `hex` crate as used by `parse_vec_u8` / `Display`)

The `hex` crate decodes bytewise: each character must be `0-9`, `a-f` or
`A-F`; encoding uses the lowercase table `b"0123456789abcdef"`. -/

/-- Value of one hex digit character; mirrors the `hex` crate's byte-range
match (`b'0'..=b'9'`, `b'a'..=b'f'`, `b'A'..=b'F'`). -/
def hexDigitVal (c : Char) : Option Nat :=
  if 48 ≤ c.toNat ∧ c.toNat ≤ 57 then some (c.toNat - 48)
  else if 97 ≤ c.toNat ∧ c.toNat ≤ 102 then some (c.toNat - 87)
  else if 65 ≤ c.toNat ∧ c.toNat ≤ 70 then some (c.toNat - 55)
  else none

/-- Hex decoding of a character string into bytes: fails on odd length or
on any character that is not a hex digit (model of `hex::decode`). -/
def hexDecode : List Char → Option (List Nat)
  | [] => some []
  | [_] => none
  | c1 :: c2 :: rest =>
    match hexDigitVal c1, hexDigitVal c2, hexDecode rest with
    | some hi, some lo, some bs => some ((16 * hi + lo) :: bs)
    | _, _, _ => none

/-- The `hex` crate's lowercase encoding table `HEX_CHARS_LOWER`. -/
def HEX_CHARS_LOWER : List Char := "0123456789abcdef".data

/-- Lowercase hex character for a 4-bit value. -/
def toHexChar (v : Nat) : Char := HEX_CHARS_LOWER.getD v '0'

/-- Two lowercase hex characters for one byte (model of `hex::encode`,
one byte at a time). -/
def hexEncodeByte (b : Nat) : List Char := [toHexChar (b / 16), toHexChar (b % 16)]

/-- Lowercase hex encoding of a byte string (model of `hex::encode`). -/
def hexEncode (bs : List Nat) : List Char := bs.flatMap hexEncodeByte

/-- Model of `s.strip_prefix("0x").unwrap_or(s)`: remove one leading
literal `0x` if present, otherwise keep the string unchanged. -/
def stripPrefix0x (s : List Char) : List Char :=
  if s.take 2 = ['0', 'x'] then s.drop 2 else s

/-- Model of `parse_vec_u8` (src/main.rs lines 147-151): strip an optional
`0x` then hex-decode. -/
def parse_vec_u8 (s : List Char) : Option (List Nat) :=
  hexDecode (stripPrefix0x s)

/-- Model of `FromStr for HexString<T>` with `T = [u8; N]`
(src/main.rs lines 84-93): parse, then the `try_into` conversion fails
unless the decoded length is exactly `N`. -/
def hexStringFromStr (N : Nat) (s : List Char) : Option (List Nat) :=
  match parse_vec_u8 s with
  | none => none
  | some bs => if bs.length = N then some bs else none

/-- Model of `Display for HexString<T>` (src/main.rs lines 95-102):
`0x` followed by lowercase hex. -/
def displayHexString (bs : List Nat) : List Char :=
  '0' :: 'x' :: hexEncode bs

/-- ASCII lowercase normalization of a character (uppercase letters map
to their lowercase forms, everything else unchanged). -/
def asciiToLower (c : Char) : Char :=
  if 65 ≤ c.toNat ∧ c.toNat ≤ 90 then Char.ofNat (c.toNat + 32) else c

/-! ### Hex codec lemmas -/

theorem hexDigitVal_lt16 {c : Char} {v : Nat} (h : hexDigitVal c = some v) : v < 16 := by
  unfold hexDigitVal at h
  split_ifs at h <;> injection h with h <;> omega

theorem hexDigitVal_toHexChar {v : Nat} (h : v < 16) : hexDigitVal (toHexChar v) = some v := by
  interval_cases v <;> decide

theorem toHexChar_asciiToLower {c : Char} {v : Nat} (h : hexDigitVal c = some v) :
    toHexChar v = asciiToLower c := by
  have hc : Char.ofNat c.toNat = c := Char.ofNat_toNat c
  unfold hexDigitVal at h
  split_ifs at h with h1 h2 h3 <;> injection h with h <;> subst h <;>
    rw [← hc] <;> set n := c.toNat with hn
  · obtain ⟨hl, hr⟩ := h1
    interval_cases n <;> decide
  · obtain ⟨hl, hr⟩ := h2
    interval_cases n <;> decide
  · obtain ⟨hl, hr⟩ := h3
    interval_cases n <;> decide

/-- Decoding then re-encoding gives back the input, lowercased. -/
theorem hexEncode_hexDecode :
    ∀ {s : List Char} {bs : List Nat}, hexDecode s = some bs →
      hexEncode bs = s.map asciiToLower
  | [], bs, h => by
      simp [hexDecode] at h; subst h; simp [hexEncode]
  | [c], bs, h => by
      simp [hexDecode] at h
  | c1 :: c2 :: rest, bs, h => by
      unfold hexDecode at h
      cases h1 : hexDigitVal c1 with
      | none => rw [h1] at h; simp at h
      | some hi =>
        cases h2 : hexDigitVal c2 with
        | none => rw [h1, h2] at h; simp at h
        | some lo =>
          cases h3 : hexDecode rest with
          | none => rw [h1, h2, h3] at h; simp at h
          | some tl =>
            rw [h1, h2, h3] at h
            simp only [Option.some.injEq] at h
            subst h
            have hhi := hexDigitVal_lt16 h1
            have hlo := hexDigitVal_lt16 h2
            have e1 : (16 * hi + lo) / 16 = hi := by omega
            have e2 : (16 * hi + lo) % 16 = lo := by omega
            have ih := hexEncode_hexDecode h3
            simp [hexEncode, hexEncodeByte, e1, e2, List.map_cons] at ih ⊢
            exact ⟨toHexChar_asciiToLower h1, toHexChar_asciiToLower h2, ih⟩

/-- Encoding then decoding gives back the bytes, provided they are bytes. -/
theorem hexDecode_hexEncode {bs : List Nat} (h : ∀ b ∈ bs, b < 256) :
    hexDecode (hexEncode bs) = some bs := by
  induction bs with
  | nil => simp [hexEncode, hexDecode]
  | cons b tl ih =>
    have hb : b < 256 := h b (by simp)
    have htl := ih (fun x hx => h x (by simp [hx]))
    have hd : b / 16 < 16 := by omega
    have hm : b % 16 < 16 := by omega
    have h1 : hexDigitVal (toHexChar (b / 16)) = some (b / 16) := hexDigitVal_toHexChar hd
    have h2 : hexDigitVal (toHexChar (b % 16)) = some (b % 16) := hexDigitVal_toHexChar hm
    have e : 16 * (b / 16) + b % 16 = b := by omega
    have hsh : hexEncode (b :: tl) = toHexChar (b / 16) :: toHexChar (b % 16) :: hexEncode tl := by
      simp [hexEncode, hexEncodeByte]
    rw [hsh]
    simp only [hexDecode, h1, h2, htl, e]

theorem hexDecode_length :
    ∀ {s : List Char} {bs : List Nat}, hexDecode s = some bs → s.length = 2 * bs.length
  | [], bs, h => by simp [hexDecode] at h; subst h; simp
  | [c], bs, h => by simp [hexDecode] at h
  | c1 :: c2 :: rest, bs, h => by
      unfold hexDecode at h
      cases h1 : hexDigitVal c1 <;> rw [h1] at h
      case none => simp at h
      case some hi =>
        cases h2 : hexDigitVal c2 <;> rw [h2] at h
        case none => simp at h
        case some lo =>
          cases h3 : hexDecode rest <;> rw [h3] at h
          case none => simp at h
          case some tl =>
            simp only [Option.some.injEq] at h
            subst h
            have := hexDecode_length h3
            simp [List.length_cons, this]
            omega

/-- Failure characterization of `hexDecode`. -/
theorem hexDecode_eq_none_iff :
    ∀ (s : List Char), hexDecode s = none ↔
      (∃ c ∈ s, hexDigitVal c = none) ∨ s.length % 2 = 1
  | [] => by simp [hexDecode]
  | [c] => by
      simp [hexDecode]
  | c1 :: c2 :: rest => by
      have ih := hexDecode_eq_none_iff rest
      unfold hexDecode
      constructor
      · intro h
        cases h1 : hexDigitVal c1 <;> rw [h1] at h
        case none => exact Or.inl ⟨c1, by simp, h1⟩
        case some hi =>
          cases h2 : hexDigitVal c2 <;> rw [h2] at h
          case none => exact Or.inl ⟨c2, by simp, h2⟩
          case some lo =>
            cases h3 : hexDecode rest <;> rw [h3] at h
            case none =>
              rcases ih.mp h3 with hbad | hodd
              · obtain ⟨c, hcmem, hcv⟩ := hbad
                exact Or.inl ⟨c, by simp [hcmem], hcv⟩
              · right; simp only [List.length_cons]; omega
            case some tl => simp at h
      · intro h
        cases h1 : hexDigitVal c1
        case none => rfl
        case some hi =>
          cases h2 : hexDigitVal c2
          case none => rfl
          case some lo =>
            have h3 : hexDecode rest = none := by
              rw [ih]
              rcases h with hbad | hodd
              · obtain ⟨c, hcmem, hcv⟩ := hbad
                rcases List.mem_cons.mp hcmem with rfl | hcmem'
                · rw [h1] at hcv; exact absurd hcv (by simp)
                rcases List.mem_cons.mp hcmem' with rfl | hcmem''
                · rw [h2] at hcv; exact absurd hcv (by simp)
                · exact Or.inl ⟨c, hcmem'', hcv⟩
              · right; simp only [List.length_cons] at hodd; omega
            rw [h3]

/-! ### Claims about the hex text codec -/

/-- C3: parsing text into a `FixedByteValue<N>` (the `FromStr`
implementation) fails if and only if, after optionally removing a leading
`0x`, the remainder contains a non-hex-digit character, has odd length, or
decodes to a byte count different from `N`; otherwise it succeeds and
returns exactly the decoded `N` bytes. -/
theorem C3_fromStr_failure_iff (N : Nat) (s : List Char) :
    (hexStringFromStr N s = none ↔
      ((∃ c ∈ stripPrefix0x s, hexDigitVal c = none) ∨
        (stripPrefix0x s).length % 2 = 1 ∨
        (∃ bs, hexDecode (stripPrefix0x s) = some bs ∧ bs.length ≠ N))) ∧
    (∀ bs, hexStringFromStr N s = some bs →
      hexDecode (stripPrefix0x s) = some bs ∧ bs.length = N) := by
  cases h : hexDecode (stripPrefix0x s) with
  | none =>
    have key : hexStringFromStr N s = none := by
      unfold hexStringFromStr parse_vec_u8; rw [h]
    rw [key]
    constructor
    · constructor
      · intro _
        rcases (hexDecode_eq_none_iff _).mp h with hbad | hodd
        · exact Or.inl hbad
        · exact Or.inr (Or.inl hodd)
      · intro _; rfl
    · intro bs hbs; simp at hbs
  | some bs0 =>
    have key : hexStringFromStr N s = if bs0.length = N then some bs0 else none := by
      unfold hexStringFromStr parse_vec_u8; rw [h]
    rw [key]
    have hnone := (hexDecode_eq_none_iff (stripPrefix0x s))
    rw [h] at hnone
    simp only [reduceCtorEq, false_iff, not_or] at hnone
    obtain ⟨hval, hev⟩ := hnone
    by_cases hl : bs0.length = N
    · rw [if_pos hl]
      constructor
      · simp only [reduceCtorEq, false_iff, not_or]
        refine ⟨hval, hev, ?_⟩
        rintro ⟨bs, hbs, hne⟩
        injection hbs with hbs
        exact hne (hbs ▸ hl)
      · intro bs hbs
        injection hbs with hbs
        exact ⟨hbs ▸ rfl, hbs ▸ hl⟩
    · rw [if_neg hl]
      constructor
      · simp only [true_iff]
        exact Or.inr (Or.inr ⟨bs0, rfl, hl⟩)
      · intro bs hbs; simp at hbs

/-- C3 witness: a concrete successful parse. -/
theorem C3_fromStr_failure_iff_witness :
    hexDecode (stripPrefix0x ['0', 'x', 'a', 'b']) = some [171] ∧
    ([171] : List Nat).length = 1 :=
  (C3_fromStr_failure_iff 1 ['0', 'x', 'a', 'b']).2 [171] (by decide)

/-- C5 counterexample: the hex string `ab` parses successfully (no `0x`
prefix is required), but rendering the parsed value yields `0xab`, which
is not the lowercase normalization of `ab`. -/
theorem C5_roundtrip_counterexample :
    hexStringFromStr 1 ['a', 'b'] = some [171] ∧
    displayHexString [171] ≠ ['a', 'b'].map asciiToLower := by
  decide

/-- C5 (amended): for every hex string that parses successfully and starts
with the `0x` prefix, rendering the parsed value yields the input
lowercased; and for every byte string of length `N`, parsing its text
rendering returns exactly the original bytes. -/
theorem C5_roundtrip (N : Nat) :
    (∀ s bs, hexStringFromStr N ('0' :: 'x' :: s) = some bs →
      displayHexString bs = (('0' :: 'x' :: s).map asciiToLower)) ∧
    (∀ bs, bs.length = N → (∀ b ∈ bs, b < 256) →
      hexStringFromStr N (displayHexString bs) = some bs) := by
  constructor
  · intro s bs hparse
    have hstrip : stripPrefix0x ('0' :: 'x' :: s) = s := by
      simp [stripPrefix0x]
    obtain ⟨hdec, _⟩ := (C3_fromStr_failure_iff N ('0' :: 'x' :: s)).2 bs hparse
    rw [hstrip] at hdec
    have := hexEncode_hexDecode hdec
    simp only [displayHexString, List.map_cons, this]
    rw [show asciiToLower '0' = '0' from by decide, show asciiToLower 'x' = 'x' from by decide]
  · intro bs hlen hbytes
    have hstrip : stripPrefix0x (displayHexString bs) = hexEncode bs := by
      simp [stripPrefix0x, displayHexString]
    simp only [hexStringFromStr, parse_vec_u8, hstrip, hexDecode_hexEncode hbytes]
    rw [if_pos hlen]

/-- C5 witness: the amended round-trip at concrete inputs. -/
theorem C5_roundtrip_witness :
    displayHexString [171] = (('0' :: 'x' :: ['a', 'B']).map asciiToLower) ∧
    hexStringFromStr 2 (displayHexString [18, 52]) = some [18, 52] :=
  ⟨(C5_roundtrip 1).1 ['a', 'B'] [171] (by decide),
   (C5_roundtrip 2).2 [18, 52] (by decide) (by decide)⟩

/-- C10: only a single leading lowercase `0x` is stripped: inputs starting
with uppercase `0X`, or with a doubled `0x0x`, fail to parse even when the
remainder after that prefix is valid hex of the right length, while hex
digits themselves are accepted in either case. -/
theorem C10_single_lowercase_0x :
    (∀ rest N, (∀ c ∈ rest, hexDigitVal c ≠ none) → rest.length = 2 * N →
      hexStringFromStr N ('0' :: 'X' :: rest) = none) ∧
    (∀ rest N, (∀ c ∈ rest, hexDigitVal c ≠ none) → rest.length = 2 * N →
      hexStringFromStr N ('0' :: 'x' :: '0' :: 'x' :: rest) = none) ∧
    hexStringFromStr 1 ['A', 'B'] = some [171] ∧
    hexStringFromStr 1 ['a', 'b'] = some [171] := by
  refine ⟨?_, ?_, by decide, by decide⟩
  · intro rest N _ _
    have hstrip : stripPrefix0x ('0' :: 'X' :: rest) = '0' :: 'X' :: rest := by
      simp [stripPrefix0x]
    have hX : hexDigitVal 'X' = none := by decide
    have h0 : hexDigitVal '0' = some 0 := by decide
    simp only [hexStringFromStr, parse_vec_u8, hstrip, hexDecode, h0, hX]
  · intro rest N _ _
    have hstrip : stripPrefix0x ('0' :: 'x' :: '0' :: 'x' :: rest) = '0' :: 'x' :: rest := by
      simp [stripPrefix0x]
    have hx : hexDigitVal 'x' = none := by decide
    have h0 : hexDigitVal '0' = some 0 := by decide
    simp only [hexStringFromStr, parse_vec_u8, hstrip, hexDecode, h0, hx]

/-- C10 witness: the rejections at concrete inputs. -/
theorem C10_single_lowercase_0x_witness :
    hexStringFromStr 1 ['0', 'X', 'a', 'b'] = none ∧
    hexStringFromStr 1 ['0', 'x', '0', 'x', 'a', 'b'] = none :=
  ⟨C10_single_lowercase_0x.1 ['a', 'b'] 1 (by decide) (by decide),
   C10_single_lowercase_0x.2.1 ['a', 'b'] 1 (by decide) (by decide)⟩

/-! ## SHA-256 (model of the `sha2` crate, i.e. FIPS 180-4)

Words are natural numbers reduced modulo `2^32`. The incremental hasher
(`Sha256::default` / `update` / `finalize`) is modelled by the list of
bytes absorbed so far; `finalize` hashes the whole absorbed stream. -/

/-- Reduction of a natural number to a 32-bit word. -/
def w32 (n : Nat) : Nat := n % 4294967296

/-- 32-bit right rotation. -/
def rotr32 (x n : Nat) : Nat := w32 ((x >>> n) ||| (x <<< (32 - n)))

def bigSigma0 (x : Nat) : Nat := rotr32 x 2 ^^^ rotr32 x 13 ^^^ rotr32 x 22

def bigSigma1 (x : Nat) : Nat := rotr32 x 6 ^^^ rotr32 x 11 ^^^ rotr32 x 25

def smallSigma0 (x : Nat) : Nat := rotr32 x 7 ^^^ rotr32 x 18 ^^^ (x >>> 3)

def smallSigma1 (x : Nat) : Nat := rotr32 x 17 ^^^ rotr32 x 19 ^^^ (x >>> 10)

/-- The 64 SHA-256 round constants. -/
def SHA256_K : List Nat :=
  [1116352408, 1899447441, 3049323471, 3921009573, 961987163, 1508970993,
   2453635748, 2870763221, 3624381080, 310598401, 607225278, 1426881987,
   1925078388, 2162078206, 2614888103, 3248222580, 3835390401, 4022224774,
   264347078, 604807628, 770255983, 1249150122, 1555081692, 1996064986,
   2554220882, 2821834349, 2952996808, 3210313671, 3336571891, 3584528711,
   113926993, 338241895, 666307205, 773529912, 1294757372, 1396182291,
   1695183700, 1986661051, 2177026350, 2456956037, 2730485921, 2820302411,
   3259730800, 3345764771, 3516065817, 3600352804, 4094571909, 275423344,
   430227734, 506948616, 659060556, 883997877, 958139571, 1322822218,
   1537002063, 1747873779, 1955562222, 2024104815, 2227730452, 2361852424,
   2428436474, 2756734187, 3204031479, 3329325298]

/-- The eight 32-bit working registers of the SHA-256 compression
function. -/
structure Sha256State where
  a : Nat
  b : Nat
  c : Nat
  d : Nat
  e : Nat
  f : Nat
  g : Nat
  h : Nat

/-- SHA-256 initial hash value. -/
def SHA256_INIT : Sha256State :=
  ⟨1779033703, 3144134277, 1013904242, 2773480762,
   1359893119, 2600822924, 528734635, 1541459225⟩

/-- A big-endian 32-bit word from four bytes. -/
def wordOfBytesBE (b0 b1 b2 b3 : Nat) : Nat := (b0 <<< 24) ||| (b1 <<< 16) ||| (b2 <<< 8) ||| b3

/-- Big-endian 32-bit words of a byte string (length a multiple of 4). -/
def toWordsBE : List Nat → List Nat
  | b0 :: b1 :: b2 :: b3 :: rest => wordOfBytesBE b0 b1 b2 b3 :: toWordsBE rest
  | _ => []

/-- Extend the 16 block words to the 64-entry message schedule. -/
def scheduleExtend (ws : List Nat) : List Nat :=
  (List.range 48).foldl (fun acc _ =>
    acc ++ [w32 (acc.getD (acc.length - 16) 0 + smallSigma0 (acc.getD (acc.length - 15) 0) +
      acc.getD (acc.length - 7) 0 + smallSigma1 (acc.getD (acc.length - 2) 0))]) ws

/-- One SHA-256 compression round with round constant and schedule word
`kw`. -/
def sha256Round (st : Sha256State) (kw : Nat × Nat) : Sha256State :=
  let ch := (st.e &&& st.f) ^^^ ((0xffffffff ^^^ st.e) &&& st.g)
  let maj := (st.a &&& st.b) ^^^ (st.a &&& st.c) ^^^ (st.b &&& st.c)
  let t1 := w32 (st.h + bigSigma1 st.e + ch + kw.1 + kw.2)
  let t2 := w32 (bigSigma0 st.a + maj)
  ⟨w32 (t1 + t2), st.a, st.b, st.c, w32 (st.d + t1), st.e, st.f, st.g⟩

/-- Process one 64-byte block. -/
def processBlock (st : Sha256State) (block : List Nat) : Sha256State :=
  let ws := scheduleExtend (toWordsBE block)
  let t := (SHA256_K.zip ws).foldl sha256Round st
  ⟨w32 (st.a + t.a), w32 (st.b + t.b), w32 (st.c + t.c), w32 (st.d + t.d),
   w32 (st.e + t.e), w32 (st.f + t.f), w32 (st.g + t.g), w32 (st.h + t.h)⟩

/-- Split a byte string into 64-byte blocks; the fuel argument (an upper
bound on the number of blocks, decreasing structurally) keeps the
recursion structural so that the kernel can evaluate it. -/
def toBlocksAux : Nat → List Nat → List (List Nat)
  | 0, _ => []
  | _, [] => []
  | fuel + 1, b :: bs => ((b :: bs).take 64) :: toBlocksAux fuel ((b :: bs).drop 64)

/-- Split a byte string into 64-byte blocks. -/
def toBlocks (bs : List Nat) : List (List Nat) := toBlocksAux bs.length bs

/-- Big-endian bytes of a natural number, `k` bytes wide. -/
def toBytesBE (k : Nat) (n : Nat) : List Nat :=
  (List.range k).map (fun i => (n >>> (8 * (k - 1 - i))) % 256)

/-- SHA-256 message padding: `0x80`, zeros to 56 mod 64, then the bit
length as a 64-bit big-endian integer. -/
def sha256Pad (msg : List Nat) : List Nat :=
  msg ++ 0x80 :: List.replicate ((55 + 64 - msg.length % 64) % 64) 0 ++ toBytesBE 8 (8 * msg.length)

/-- SHA-256 of a byte string, as 32 bytes. -/
def sha256 (msg : List Nat) : List Nat :=
  let st := (toBlocks (sha256Pad msg)).foldl processBlock SHA256_INIT
  [st.a, st.b, st.c, st.d, st.e, st.f, st.g, st.h].flatMap (toBytesBE 4)

/-- The incremental hasher: the bytes absorbed so far. -/
structure Sha256Hasher where
  absorbed : List Nat

/-- Model of `Sha256::default()`: nothing absorbed. -/
def Sha256Hasher.init : Sha256Hasher := ⟨[]⟩

/-- Model of `hasher.update(bs)`: absorb further bytes. -/
def Sha256Hasher.update (hs : Sha256Hasher) (bs : List Nat) : Sha256Hasher :=
  ⟨hs.absorbed ++ bs⟩

/-- Model of `hasher.finalize()`: hash of the whole absorbed stream. -/
def Sha256Hasher.finalize (hs : Sha256Hasher) : List Nat := sha256 hs.absorbed

theorem toBytesBE_length (k n : Nat) : (toBytesBE k n).length = k := by
  simp [toBytesBE]

theorem sha256_length (msg : List Nat) : (sha256 msg).length = 32 := by
  simp [sha256, List.flatMap_cons, toBytesBE_length]

/-- Validation of the SHA-256 model against the FIPS 180-4 test vector
for the message `abc`. -/
theorem sha256_abc :
    sha256 [97, 98, 99] =
      [0xba, 0x78, 0x16, 0xbf, 0x8f, 0x01, 0xcf, 0xea, 0x41, 0x41, 0x40, 0xde, 0x5d, 0xae, 0x22, 0x23,
       0xb0, 0x03, 0x61, 0xa3, 0x96, 0x17, 0x7a, 0x9c, 0xb4, 0x10, 0xff, 0x61, 0xf2, 0x00, 0x15, 0xad] := by
  decide

/-! ## Identifier derivation (src/main.rs lines 166-190)

`HexString<[u8; 20]>` / `HexString<[u8; 32]>` values are modelled by
their byte lists; the length-20 / length-32 invariants appear as
hypotheses of the theorems. Writing the 20 address bytes into bytes
12..32 of a zeroed 32-byte buffer is, for a 20-byte address, exactly
`List.replicate 12 0 ++ token_address`. -/

/-- Model of `get_warp_route_id` (src/main.rs lines 167-175). -/
def get_warp_route_id (token_address deployer : List Nat) : List Nat :=
  let extended_token_address := List.replicate 12 0 ++ token_address
  ((((Sha256Hasher.init.update extended_token_address).update [0]).update
    deployer)).finalize

/-- The `format!("Synthetic token for {warp_route_id}")` string built by
`get_token_id`: the literal followed by the `Display` rendering of the
warp route id. -/
def tokenName (warp_route_id : List Nat) : List Char :=
  "Synthetic token for ".data ++ displayHexString warp_route_id

/-- Model of `get_token_id` (src/main.rs lines 178-185). The token-name
string consists of ASCII characters only, so its UTF-8 bytes are the
character code points. -/
def get_token_id (warp_route_id : List Nat) (decimals : Nat) : List Nat :=
  ((((Sha256Hasher.init.update warp_route_id).update
    ((tokenName warp_route_id).map Char.toNat)).update [decimals])).finalize

/-! ### Supporting lemmas for the derivation claims -/

theorem hexEncode_length (bs : List Nat) : (hexEncode bs).length = 2 * bs.length := by
  induction bs with
  | nil => simp [hexEncode]
  | cons b tl ih =>
    simp [hexEncode, hexEncodeByte] at ih ⊢
    omega

theorem toHexChar_mem (v : Nat) : toHexChar v ∈ HEX_CHARS_LOWER := by
  by_cases h : v < 16
  · interval_cases v <;> decide
  · unfold toHexChar
    rw [List.getD_eq_default]
    · decide
    · have hlen : HEX_CHARS_LOWER.length = 16 := by decide
      omega

theorem hexEncode_mem {bs : List Nat} {c : Char} (h : c ∈ hexEncode bs) :
    c ∈ HEX_CHARS_LOWER := by
  simp only [hexEncode, List.mem_flatMap] at h
  obtain ⟨b, _, hc⟩ := h
  simp only [hexEncodeByte, List.mem_cons, List.not_mem_nil, or_false] at hc
  rcases hc with rfl | rfl <;> exact toHexChar_mem _

/-! ### Claims about the derivation functions -/

/-- C1: for 20-byte `token_address` and `deployer`, `get_warp_route_id`
is the SHA-256 digest of exactly the 53-byte sequence: 12 zero bytes,
the 20 bytes of `token_address`, one `0x00` separator byte, and the 20
bytes of `deployer`; the result is 32 bytes. -/
theorem C1_warp_route_id_layout (token_address deployer : List Nat)
    (h1 : token_address.length = 20) (h2 : deployer.length = 20) :
    get_warp_route_id token_address deployer =
      sha256 (List.replicate 12 0 ++ token_address ++ [0] ++ deployer) ∧
    (List.replicate 12 0 ++ token_address ++ [0] ++ deployer).length = 53 ∧
    (get_warp_route_id token_address deployer).length = 32 := by
  have key : get_warp_route_id token_address deployer =
      sha256 (List.replicate 12 0 ++ token_address ++ [0] ++ deployer) := by
    simp [get_warp_route_id, Sha256Hasher.init, Sha256Hasher.update, Sha256Hasher.finalize,
      List.append_assoc]
  refine ⟨key, ?_, ?_⟩
  · simp [h1, h2]
  · rw [key]; exact sha256_length _

/-- C1 witness: the layout at the all-zero addresses. -/
theorem C1_warp_route_id_layout_witness :
    get_warp_route_id (List.replicate 20 0) (List.replicate 20 0) =
      sha256 (List.replicate 12 0 ++ List.replicate 20 0 ++ [0] ++ List.replicate 20 0) ∧
    (List.replicate 12 0 ++ List.replicate 20 0 ++ [0] ++ List.replicate 20 0).length = 53 ∧
    (get_warp_route_id (List.replicate 20 0) (List.replicate 20 0)).length = 32 :=
  C1_warp_route_id_layout (List.replicate 20 0) (List.replicate 20 0) (by decide) (by decide)

/-- C2: for a 32-byte `warp_route_id` and a decimals byte,
`get_token_id` is the SHA-256 digest of exactly: the 32 raw bytes of
`warp_route_id`, then the UTF-8 bytes of the string
`Synthetic token for 0x` followed by the 64 lowercase hex characters of
`warp_route_id`, then the single decimals byte. -/
theorem C2_token_id_layout (warp_route_id : List Nat) (decimals : Nat)
    (hw : warp_route_id.length = 32) (_hbytes : ∀ b ∈ warp_route_id, b < 256) :
    get_token_id warp_route_id decimals =
      sha256 (warp_route_id ++
        ("Synthetic token for 0x".data ++ hexEncode warp_route_id).map Char.toNat ++
        [decimals]) ∧
    (hexEncode warp_route_id).length = 64 ∧
    (∀ c ∈ hexEncode warp_route_id, c ∈ HEX_CHARS_LOWER) ∧
    (get_token_id warp_route_id decimals).length = 32 := by
  have hsplit : ("Synthetic token for 0x".data : List Char) =
      "Synthetic token for ".data ++ ['0', 'x'] := by decide
  have key : get_token_id warp_route_id decimals =
      sha256 (warp_route_id ++
        ("Synthetic token for 0x".data ++ hexEncode warp_route_id).map Char.toNat ++
        [decimals]) := by
    simp [get_token_id, Sha256Hasher.init, Sha256Hasher.update, Sha256Hasher.finalize,
      tokenName, displayHexString, hsplit, List.append_assoc]
  refine ⟨key, ?_, fun c hc => hexEncode_mem hc, ?_⟩
  · rw [hexEncode_length, hw]
  · rw [key]; exact sha256_length _

/-- C2 witness: the layout at the all-zero warp route id with 18
decimals. -/
theorem C2_token_id_layout_witness :
    get_token_id (List.replicate 32 0) 18 =
      sha256 (List.replicate 32 0 ++
        ("Synthetic token for 0x".data ++ hexEncode (List.replicate 32 0)).map Char.toNat ++
        [18]) ∧
    (hexEncode (List.replicate 32 0)).length = 64 ∧
    (∀ c ∈ hexEncode (List.replicate 32 0), c ∈ HEX_CHARS_LOWER) ∧
    (get_token_id (List.replicate 32 0) 18).length = 32 :=
  C2_token_id_layout (List.replicate 32 0) 18 (by decide) (by decide)

/-- C7: `get_warp_route_id` and `get_token_id` are pure functions of
their arguments (they are plain Lean functions over the absorbed byte
stream, with no state); two calls with equal inputs return byte-identical
results. -/
theorem C7_determinism (ta₁ ta₂ dep₁ dep₂ w₁ w₂ : List Nat) (d₁ d₂ : Nat)
    (hta : ta₁ = ta₂) (hdep : dep₁ = dep₂) (hw : w₁ = w₂) (hd : d₁ = d₂) :
    get_warp_route_id ta₁ dep₁ = get_warp_route_id ta₂ dep₂ ∧
    get_token_id w₁ d₁ = get_token_id w₂ d₂ := by
  subst hta hdep hw hd
  exact ⟨rfl, rfl⟩

/-- C7 witness: determinism at concrete inputs. -/
theorem C7_determinism_witness :
    get_warp_route_id (List.replicate 20 0) (List.replicate 20 0) =
      get_warp_route_id (List.replicate 20 0) (List.replicate 20 0) ∧
    get_token_id (List.replicate 32 0) 18 = get_token_id (List.replicate 32 0) 18 :=
  C7_determinism _ _ _ _ _ _ _ _ rfl rfl rfl rfl

/-! ## Binary serialization (src/main.rs lines 29-48 and 72-76)

`BorshSerialize for HexString<T>` forwards to the inner array's borsh
serialization; borsh writes a fixed-size `[u8; N]` as its `N` elements in
order, each element as one raw byte, with no length prefix. The serde
implementation chooses between a hex string (human-readable mode) and a
sequence of the `N` byte elements (binary mode); the serde data model is
modelled by `SerdeValue`. -/

/-- Borsh serialization of one `u8`: a single raw byte. -/
def borshSerializeU8 (b : Nat) : List Nat := [b]

/-- Borsh serialization of a fixed-size byte array: the elements in
order, no length prefix. -/
def borshSerializeByteArray (bs : List Nat) : List Nat :=
  bs.flatMap borshSerializeU8

/-- Model of `BorshSerialize for HexString<T>` (src/main.rs lines 72-76):
forwards to the inner value. -/
def borshSerializeHexString (bs : List Nat) : List Nat :=
  borshSerializeByteArray bs

/-- The serde data model values produced by `serde::Serialize for
HexString<T>`: a string, or a sequence of byte elements with its
announced length. -/
inductive SerdeValue where
  | str : List Char → SerdeValue
  | seq : Nat → List Nat → SerdeValue
deriving DecidableEq

/-- Model of `serde::Serialize for HexString<T>` (src/main.rs lines
29-48): hex text when the serializer is human-readable, otherwise a
sequence of the raw byte elements announced with their count. -/
def serdeSerializeHexString (humanReadable : Bool) (bs : List Nat) : SerdeValue :=
  if humanReadable then .str (displayHexString bs)
  else .seq bs.length bs

/-- C8: the non-human-readable serializations of a `HexString<[u8; N]>`
write exactly the `N` contained bytes unchanged and in order: borsh
emits precisely the raw bytes with no framing, and the serde binary mode
emits a sequence of exactly those `N` elements. -/
theorem C8_binary_serialization (bs : List Nat) (N : Nat) (h : bs.length = N) :
    borshSerializeHexString bs = bs ∧
    (borshSerializeHexString bs).length = N ∧
    serdeSerializeHexString false bs = SerdeValue.seq N bs := by
  have key : borshSerializeHexString bs = bs := by
    unfold borshSerializeHexString borshSerializeByteArray borshSerializeU8
    clear h
    induction bs with
    | nil => rfl
    | cons b tl ih => simp only [List.flatMap_cons, List.singleton_append, ih]
  exact ⟨key, by rw [key, h], by simp [serdeSerializeHexString, h]⟩

/-- C8 witness: borsh and binary serde at a concrete 3-byte value. -/
theorem C8_binary_serialization_witness :
    borshSerializeHexString [1, 2, 3] = [1, 2, 3] ∧
    (borshSerializeHexString [1, 2, 3]).length = 3 ∧
    serdeSerializeHexString false [1, 2, 3] = SerdeValue.seq 3 [1, 2, 3] :=
  C8_binary_serialization [1, 2, 3] 3 (by decide)

/-! ## Bech32m (model of the `bech32` crate, per BIP-173 / BIP-350)

`format_token_id` (src/main.rs lines 187-190) calls
`Hrp::parse("token_")` and `bech32::encode::<Bech32m>`. The bech32 crate
is modelled here from its specification: the payload bytes are regrouped
into 5-bit values (padding the final value with zero bits), a 6-value
bech32m checksum is appended, and each 5-bit value becomes one charset
character after the human-readable part and the `1` separator. The
decoder used to state the round-trip claim splits at the last `1`,
re-derives the 5-bit values, verifies the bech32m checksum, and
regroups the payload values into bytes, rejecting nonzero or oversized
padding. -/

/-- Little-endian bits of a natural number, `w` bits wide. -/
def natToBitsLE : Nat → Nat → List Bool
  | 0, _ => []
  | w + 1, x => decide (x % 2 = 1) :: natToBitsLE w (x / 2)

/-- Natural number from little-endian bits. -/
def bitsLEToNat : List Bool → Nat
  | [] => 0
  | b :: bs => cond b 1 0 + 2 * bitsLEToNat bs

/-- Big-endian bits of a natural number, `w` bits wide. -/
def natToBitsBE (w x : Nat) : List Bool := (natToBitsLE w x).reverse

/-- Natural number from big-endian bits. -/
def bitsBEToNat (bs : List Bool) : Nat := bitsLEToNat bs.reverse

/-- Bit stream of a byte string, each byte big-endian. -/
def bytesToBits (bs : List Nat) : List Bool := bs.flatMap (natToBitsBE 8)

/-- Group a bit stream into `w`-bit big-endian values; the fuel keeps the
recursion structural. -/
def groupBitsAux (w : Nat) : Nat → List Bool → List Nat
  | 0, _ => []
  | _, [] => []
  | fuel + 1, b :: bs =>
    bitsBEToNat ((b :: bs).take w) :: groupBitsAux w fuel ((b :: bs).drop w)

/-- Pad a bit stream on the right with zero bits to a multiple of 5. -/
def padBitsTo5 (bits : List Bool) : List Bool :=
  bits ++ List.replicate ((5 - bits.length % 5) % 5) false

/-- Regroup bytes into 5-bit values, padding the final value with zero
bits (the `bytes_to_fes` conversion of the bech32 crate). -/
def bytesToBase32 (bs : List Nat) : List Nat :=
  let bits := padBitsTo5 (bytesToBits bs)
  groupBitsAux 5 bits.length bits

/-- Regroup 5-bit values into bytes, rejecting padding of five or more
bits or with a nonzero bit (the strict `fes_to_bytes` direction). -/
def base32ToBytes (vs : List Nat) : Option (List Nat) :=
  let bits := vs.flatMap (natToBitsBE 5)
  let n := bits.length / 8
  let bytebits := bits.take (8 * n)
  let padding := bits.drop (8 * n)
  if padding.length < 5 ∧ padding.all (fun b => b = false) then
    some (groupBitsAux 8 bytebits.length bytebits)
  else none

/-- The bech32m checksum residue constant. -/
def BECH32M_CONST : Nat := 0x2bc830a3

/-- One step of the bech32 checksum polynomial evaluation. -/
def polymodStep (chk v : Nat) : Nat :=
  let b := chk >>> 25
  (((chk &&& 0x1ffffff) <<< 5) ^^^ v)
    ^^^ (if b.testBit 0 then 0x3b6a57b2 else 0)
    ^^^ (if b.testBit 1 then 0x26508e6d else 0)
    ^^^ (if b.testBit 2 then 0x1ea119fa else 0)
    ^^^ (if b.testBit 3 then 0x3d4233dd else 0)
    ^^^ (if b.testBit 4 then 0x2a1462b3 else 0)

/-- The bech32 checksum polynomial over a list of 5-bit values. -/
def bech32Polymod (values : List Nat) : Nat := values.foldl polymodStep 1

/-- The checksum input contribution of the human-readable part: high
bits of each character, a zero, then low bits of each character. -/
def hrpExpand (hrp : List Char) : List Nat :=
  hrp.map (fun c => c.toNat >>> 5) ++ [0] ++ hrp.map (fun c => c.toNat &&& 31)

/-- The six 5-bit bech32m checksum values for a human-readable part and
payload values. -/
def createChecksum (hrp : List Char) (data : List Nat) : List Nat :=
  let values := hrpExpand hrp ++ data
  let pm := bech32Polymod (values ++ [0, 0, 0, 0, 0, 0]) ^^^ BECH32M_CONST
  (List.range 6).map (fun i => (pm >>> (5 * (5 - i))) &&& 31)

/-- The bech32 data charset. -/
def BECH32_CHARSET : List Char := "qpzry9x8gf2tvdw0s3jn54khce6mua7l".data

/-- Charset character of a 5-bit value. -/
def bech32CharOf (v : Nat) : Char := BECH32_CHARSET.getD v 'q'

/-- Position of a character in a list. -/
def charIndex (c : Char) : List Char → Option Nat
  | [] => none
  | d :: rest => if d = c then some 0 else (charIndex c rest).map (· + 1)

/-- Index of a character in the charset, if any. -/
def bech32ValOf (c : Char) : Option Nat := charIndex c BECH32_CHARSET

/-- Model of `Hrp::parse`: rejects an empty part, more than 83
characters, characters outside printable US-ASCII 33-126, and mixed
case. -/
def hrpParse (hrp : List Char) : Option (List Char) :=
  if hrp = [] then none
  else if 83 < hrp.length then none
  else if ¬ hrp.all (fun c => 33 ≤ c.toNat ∧ c.toNat ≤ 126) then none
  else if (hrp.any fun c => 65 ≤ c.toNat ∧ c.toNat ≤ 90) ∧
      (hrp.any fun c => 97 ≤ c.toNat ∧ c.toNat ≤ 122) then none
  else some hrp

/-- The length in characters of the would-be encoding. -/
def bech32EncodedLength (hrp : List Char) (dataBytes : List Nat) : Nat :=
  hrp.length + 1 + (bytesToBase32 dataBytes).length + 6

/-- Model of `bech32::encode::<Bech32m>`: fails when the code would
exceed the bech32m code length 1023; otherwise the lowercased
human-readable part, the `1` separator, then payload and checksum
characters. -/
def bech32Encode (hrp : List Char) (dataBytes : List Nat) : Option (List Char) :=
  if 1023 < bech32EncodedLength hrp dataBytes then none
  else
    let lc := hrp.map asciiToLower
    let data5 := bytesToBase32 dataBytes
    let cs := createChecksum lc data5
    some (lc ++ '1' :: (data5 ++ cs).map bech32CharOf)

/-- Split a character string at its last `1`, into the part before and
the part after. -/
def splitLastOne : List Char → Option (List Char × List Char)
  | [] => none
  | c :: rest =>
    match splitLastOne rest with
    | some (hd, tl) => some (c :: hd, tl)
    | none => if c = '1' then some ([], rest) else none

/-- Charset values of a character string, if all characters are in the
charset. -/
def charVals : List Char → Option (List Nat)
  | [] => some []
  | c :: rest =>
    match bech32ValOf c, charVals rest with
    | some v, some vs => some (v :: vs)
    | _, _ => none

/-- A bech32m decoder for lowercase strings: split at the last `1`,
validate the human-readable part, map the data characters to 5-bit
values, verify the bech32m checksum, drop the six checksum values and
regroup the payload into bytes. -/
def bech32Decode (s : List Char) : Option (List Char × List Nat) :=
  match splitLastOne s with
  | none => none
  | some (hrp, dataPart) =>
    match hrpParse hrp with
    | none => none
    | some _ =>
      match charVals dataPart with
      | none => none
      | some vs =>
        if vs.length < 6 then none
        else if bech32Polymod (hrpExpand hrp ++ vs) = BECH32M_CONST then
          match base32ToBytes (vs.take (vs.length - 6)) with
          | none => none
          | some bytes => some (hrp, bytes)
        else none

/-- Model of `format_token_id` (src/main.rs lines 187-190): parse the
`token_` prefix as an Hrp, then bech32m-encode the 32 identifier bytes;
either step's failure (a panic in the Rust code) is `none`. -/
def format_token_id (id : List Nat) : Option (List Char) :=
  match hrpParse "token_".data with
  | none => none
  | some hrp => bech32Encode hrp id

/-! ### Bit regrouping lemmas -/

theorem natToBitsLE_length : ∀ (w x : Nat), (natToBitsLE w x).length = w
  | 0, _ => rfl
  | w + 1, x => by simp [natToBitsLE, natToBitsLE_length w]

theorem natToBitsBE_length (w x : Nat) : (natToBitsBE w x).length = w := by
  simp [natToBitsBE, natToBitsLE_length]

theorem bytesToBits_length (bs : List Nat) : (bytesToBits bs).length = 8 * bs.length := by
  induction bs with
  | nil => rfl
  | cons b tl ih =>
    simp only [bytesToBits, List.flatMap_cons] at ih ⊢
    simp [ih, natToBitsBE_length, List.length_cons]
    ring

theorem bitsLEToNat_lt : ∀ (bs : List Bool), bitsLEToNat bs < 2 ^ bs.length
  | [] => by simp [bitsLEToNat]
  | b :: tl => by
    have := bitsLEToNat_lt tl
    simp only [bitsLEToNat, List.length_cons, pow_succ]
    cases b <;> simp <;> omega

theorem bitsBEToNat_lt (bs : List Bool) : bitsBEToNat bs < 2 ^ bs.length := by
  have := bitsLEToNat_lt bs.reverse
  simpa [bitsBEToNat] using this

theorem natToBitsLE_bitsLEToNat : ∀ (bs : List Bool), natToBitsLE bs.length (bitsLEToNat bs) = bs
  | [] => rfl
  | b :: tl => by
    have ih := natToBitsLE_bitsLEToNat tl
    have hdiv : (cond b 1 0 + 2 * bitsLEToNat tl) / 2 = bitsLEToNat tl := by
      cases b <;> simp <;> omega
    have hmod : decide ((cond b 1 0 + 2 * bitsLEToNat tl) % 2 = 1) = b := by
      cases b <;> simp <;> omega
    simp only [List.length_cons, bitsLEToNat, natToBitsLE, hdiv, hmod, ih]

theorem natToBitsBE_bitsBEToNat {bs : List Bool} {w : Nat} (h : bs.length = w) :
    natToBitsBE w (bitsBEToNat bs) = bs := by
  have hrev : bs.reverse.length = w := by simpa using h
  simp only [natToBitsBE, bitsBEToNat]
  rw [← hrev, natToBitsLE_bitsLEToNat bs.reverse, List.reverse_reverse]

theorem bitsLEToNat_natToBitsLE : ∀ (w x : Nat), bitsLEToNat (natToBitsLE w x) = x % 2 ^ w
  | 0, x => by simp [natToBitsLE, bitsLEToNat, Nat.mod_one]
  | w + 1, x => by
    have ih := bitsLEToNat_natToBitsLE w (x / 2)
    have hm : x / 2 % 2 ^ w = x % (2 ^ w * 2) / 2 := by
      have := Nat.div_mod_eq_mod_mul_div x 2 (2 ^ w)
      rw [show (2 : Nat) * 2 ^ w = 2 ^ w * 2 from by ring] at this
      exact this
    have h2 : x % (2 ^ w * 2) % 2 = x % 2 := Nat.mod_mod_of_dvd _ ⟨2 ^ w, by ring⟩
    simp only [natToBitsLE, bitsLEToNat, ih, pow_succ, hm]
    rcases Nat.mod_two_eq_zero_or_one x with h | h <;> simp [h] <;> omega

theorem bitsBEToNat_natToBitsBE {w x : Nat} (h : x < 2 ^ w) :
    bitsBEToNat (natToBitsBE w x) = x := by
  simp only [bitsBEToNat, natToBitsBE, List.reverse_reverse]
  rw [bitsLEToNat_natToBitsLE, Nat.mod_eq_of_lt h]

theorem groupBitsAux_nil (w fuel : Nat) : groupBitsAux w fuel [] = [] := by
  cases fuel <;> rfl

theorem groupBitsAux_length {w : Nat} (hw : 0 < w) :
    ∀ (fuel : Nat) (bits : List Bool), bits.length ≤ fuel → w ∣ bits.length →
      (groupBitsAux w fuel bits).length = bits.length / w
  | 0, bits, hle, hdvd => by
    have h0 : bits.length = 0 := by omega
    simp [groupBitsAux, h0]
  | fuel + 1, bits, hle, hdvd => by
    cases bits with
    | nil => simp [groupBitsAux]
    | cons b bs =>
      obtain ⟨k, hk⟩ := hdvd
      have hk1 : 1 ≤ k := by
        rcases Nat.eq_zero_or_pos k with h | h
        · simp [h] at hk
        · exact h
      have hwle : w ≤ (b :: bs).length := by
        rw [hk]; calc w = w * 1 := by ring
                      _ ≤ w * k := Nat.mul_le_mul_left w hk1
      have hmul : w * k - w = w * (k - 1) := by
        cases k with
        | zero => simp
        | succ k2 => simp [Nat.mul_succ]
      have hdl : ((b :: bs).drop w).length = w * (k - 1) := by
        simp only [List.length_drop, hk]
        omega
      have hrec := groupBitsAux_length hw fuel ((b :: bs).drop w)
        (by simp only [List.length_drop]; simp only [List.length_cons] at hle ⊢; omega)
        (by rw [hdl]; exact Dvd.intro _ rfl)
      simp only [groupBitsAux, List.length_cons, hrec, hdl, hk]
      rw [Nat.mul_div_cancel_left _ hw, Nat.mul_div_cancel_left _ hw]
      omega

theorem flatMap_groupBits {w : Nat} (hw : 0 < w) :
    ∀ (fuel : Nat) (bits : List Bool), bits.length ≤ fuel → w ∣ bits.length →
      (groupBitsAux w fuel bits).flatMap (natToBitsBE w) = bits
  | 0, bits, hle, hdvd => by
    have h0 : bits.length = 0 := by omega
    rw [List.length_eq_zero] at h0
    subst h0
    simp [groupBitsAux]
  | fuel + 1, bits, hle, hdvd => by
    cases bits with
    | nil => simp [groupBitsAux]
    | cons b bs =>
      obtain ⟨k, hk⟩ := hdvd
      have hk1 : 1 ≤ k := by
        rcases Nat.eq_zero_or_pos k with h | h
        · simp [h] at hk
        · exact h
      have hwle : w ≤ (b :: bs).length := by
        rw [hk]
        calc w = w * 1 := by ring
          _ ≤ w * k := Nat.mul_le_mul_left w hk1
      have htk : ((b :: bs).take w).length = w := by
        simp only [List.length_take, List.length_cons]
        simp only [List.length_cons] at hwle
        omega
      have hmul : w * k - w = w * (k - 1) := by
        cases k with
        | zero => simp
        | succ k2 => simp [Nat.mul_succ]
      have hrec := flatMap_groupBits hw fuel ((b :: bs).drop w)
        (by simp only [List.length_drop]; simp only [List.length_cons] at hle ⊢; omega)
        (by simp only [List.length_drop, hk]; rw [show w * k - w = w * (k - 1) from hmul]
            exact Dvd.intro _ rfl)
      simp only [groupBitsAux, List.flatMap_cons, natToBitsBE_bitsBEToNat htk, hrec,
        List.take_append_drop]

theorem groupBitsAux_flatMap {w : Nat} (hw : 0 < w) :
    ∀ (bs : List Nat) (fuel : Nat), (∀ b ∈ bs, b < 2 ^ w) →
      (bs.flatMap (natToBitsBE w)).length ≤ fuel →
      groupBitsAux w fuel (bs.flatMap (natToBitsBE w)) = bs := by
  intro bs
  induction bs with
  | nil => intro fuel _ _; simp [groupBitsAux_nil]
  | cons b tl ih =>
    intro fuel hlt hle
    have hb : b < 2 ^ w := hlt b (by simp)
    have hlen : (natToBitsBE w b).length = w := natToBitsBE_length w b
    cases fuel with
    | zero =>
      exfalso
      simp only [List.flatMap_cons, List.length_append, hlen] at hle
      omega
    | succ fuel =>
      have hcons : ∃ c cs, natToBitsBE w b = c :: cs := by
        cases hh : natToBitsBE w b with
        | nil => rw [hh] at hlen; simp at hlen; omega
        | cons c cs => exact ⟨c, cs, rfl⟩
      obtain ⟨c, cs, hcs⟩ := hcons
      have hsplit : (b :: tl).flatMap (natToBitsBE w) =
          natToBitsBE w b ++ tl.flatMap (natToBitsBE w) := by
        simp [List.flatMap_cons]
      set A := natToBitsBE w b with hA
      set B := tl.flatMap (natToBitsBE w) with hB
      have hform : A ++ B = c :: (cs ++ B) := by rw [hcs]; rfl
      have htake : (c :: (cs ++ B)).take w = A := by
        rw [← hform, ← hlen]; exact List.take_left _ _
      have hdrop : (c :: (cs ++ B)).drop w = B := by
        rw [← hform, ← hlen]; exact List.drop_left _ _
      have hrec := ih fuel (fun x hx => hlt x (by simp [hx]))
        (by rw [hsplit] at hle
            simp only [List.length_append, hlen] at hle
            omega)
      rw [hsplit, hform]
      simp only [groupBitsAux, htake, hdrop, hrec]
      rw [hA, bitsBEToNat_natToBitsBE hb]

theorem groupBitsAux_mem_lt {w : Nat} :
    ∀ (fuel : Nat) (bits : List Bool) (v : Nat), v ∈ groupBitsAux w fuel bits → v < 2 ^ w
  | 0, bits, v, hv => by simp [groupBitsAux] at hv
  | fuel + 1, bits, v, hv => by
    cases bits with
    | nil => simp [groupBitsAux] at hv
    | cons b bs =>
      simp only [groupBitsAux, List.mem_cons] at hv
      rcases hv with rfl | hv
      · have h1 := bitsBEToNat_lt ((b :: bs).take w)
        have h2 : ((b :: bs).take w).length ≤ w := by simp [List.length_take]
        calc bitsBEToNat ((b :: bs).take w) < 2 ^ ((b :: bs).take w).length := h1
          _ ≤ 2 ^ w := Nat.pow_le_pow_right (by omega) h2
      · exact groupBitsAux_mem_lt fuel _ v hv

theorem padBitsTo5_length_dvd (bits : List Bool) : 5 ∣ (padBitsTo5 bits).length := by
  simp only [padBitsTo5, List.length_append, List.length_replicate]
  omega

theorem bytesToBase32_length (bs : List Nat) :
    (bytesToBase32 bs).length = (8 * bs.length + 4) / 5 := by
  unfold bytesToBase32
  rw [groupBitsAux_length (by omega) _ _ (le_refl _) (padBitsTo5_length_dvd _)]
  simp only [padBitsTo5, List.length_append, List.length_replicate, bytesToBits_length]
  omega

theorem bytesToBase32_mem_lt {bs : List Nat} {v : Nat} (h : v ∈ bytesToBase32 bs) : v < 32 :=
  groupBitsAux_mem_lt _ _ v h

/-! ### Claims C6: totality of `format_token_id` -/

/-- C6: in `format_token_id`, neither fallible step takes its error
branch on a 32-byte input: parsing the `token_` human-readable part
succeeds, and bech32m-encoding the 32-byte payload succeeds, so the
function is total and never aborts on valid input. -/
theorem C6_format_token_id_total (id : List Nat) (h : id.length = 32) :
    hrpParse "token_".data = some "token_".data ∧
    ∃ s, format_token_id id = some s := by
  have hhrp : hrpParse "token_".data = some "token_".data := by decide
  refine ⟨hhrp, ?_⟩
  have hlen : bech32EncodedLength "token_".data id = 65 := by
    unfold bech32EncodedLength
    rw [bytesToBase32_length, h]
    rfl
  have key : format_token_id id = bech32Encode "token_".data id := by
    unfold format_token_id
    rw [hhrp]
  rw [key]
  unfold bech32Encode
  rw [hlen]
  rw [if_neg (by norm_num)]
  exact ⟨_, rfl⟩

/-- C6 witness: totality at the all-zero identifier. -/
theorem C6_format_token_id_total_witness :
    hrpParse "token_".data = some "token_".data ∧
    ∃ s, format_token_id (List.replicate 32 0) = some s :=
  C6_format_token_id_total (List.replicate 32 0) (by decide)

/-! ### Charset and separator lemmas -/

theorem bech32CharOf_mem (v : Nat) : bech32CharOf v ∈ BECH32_CHARSET := by
  by_cases h : v < 32
  · interval_cases v <;> decide
  · unfold bech32CharOf
    rw [List.getD_eq_default]
    · decide
    · have hlen : BECH32_CHARSET.length = 32 := by decide
      omega

theorem bech32CharOf_ne_one (v : Nat) : bech32CharOf v ≠ '1' := by
  have h := bech32CharOf_mem v
  intro heq
  rw [heq] at h
  exact absurd h (by decide)

theorem bech32ValOf_bech32CharOf {v : Nat} (h : v < 32) :
    bech32ValOf (bech32CharOf v) = some v := by
  interval_cases v <;> decide

theorem charVals_map {vs : List Nat} (h : ∀ v ∈ vs, v < 32) :
    charVals (vs.map bech32CharOf) = some vs := by
  induction vs with
  | nil => rfl
  | cons v tl ih =>
    have hv : v < 32 := h v (by simp)
    have htl := ih (fun x hx => h x (by simp [hx]))
    simp only [List.map_cons, charVals, bech32ValOf_bech32CharOf hv, htl]

theorem splitLastOne_eq_none {d : List Char} (h : '1' ∉ d) : splitLastOne d = none := by
  induction d with
  | nil => rfl
  | cons c tl ih =>
    have hc : c ≠ '1' := fun hc => h (by simp [hc])
    have htl := ih (fun hm => h (by simp [hm]))
    simp only [splitLastOne, htl]
    simp [show ¬ (c = '1') from hc]

theorem splitLastOne_append {d : List Char} (hd : '1' ∉ d) :
    ∀ pre : List Char, splitLastOne (pre ++ '1' :: d) = some (pre, d)
  | [] => by
    simp only [List.nil_append, splitLastOne, splitLastOne_eq_none hd]
    simp
  | c :: pre => by
    have ih := splitLastOne_append hd pre
    rw [List.cons_append]
    unfold splitLastOne
    rw [ih]

/-! ### Checksum algebra

The bech32 polynomial step is GF(2)-linear in the accumulator below bit
25; appending the six checksum values therefore shifts them into the
final residue, which the checksum construction chooses to make the
residue equal the bech32m constant. -/

theorem nat_xor_left_comm (a b c : Nat) : a ^^^ (b ^^^ c) = b ^^^ (a ^^^ c) := by
  rw [← Nat.xor_assoc, Nat.xor_comm a b, Nat.xor_assoc]

theorem xor_shiftRight_dist (a b k : Nat) : (a ^^^ b) >>> k = (a >>> k) ^^^ (b >>> k) := by
  apply Nat.eq_of_testBit_eq
  intro i
  simp [Nat.testBit_shiftRight, Nat.testBit_xor]

theorem xor_shiftLeft_dist (a b k : Nat) : (a ^^^ b) <<< k = (a <<< k) ^^^ (b <<< k) := by
  apply Nat.eq_of_testBit_eq
  intro i
  simp only [Nat.testBit_shiftLeft, Nat.testBit_xor]
  by_cases h : k ≤ i <;> simp [h, ge_iff_le]

theorem xor_and_dist (a b m : Nat) : (a ^^^ b) &&& m = (a &&& m) ^^^ (b &&& m) := by
  apply Nat.eq_of_testBit_eq
  intro i
  simp only [Nat.testBit_and, Nat.testBit_xor]
  cases hA : a.testBit i <;> cases hB : b.testBit i <;> cases hM : m.testBit i <;> rfl

theorem shiftRight_eq_zero_of_lt {d k : Nat} (h : d < 2 ^ k) : d >>> k = 0 := by
  rw [Nat.shiftRight_eq_div_pow]
  exact Nat.div_eq_of_lt h

theorem and_mask25_of_lt {d : Nat} (h : d < 2 ^ 25) : d &&& 0x1ffffff = d := by
  have h2 := Nat.and_pow_two_sub_one_eq_mod d 25
  norm_num at h2
  rw [h2, Nat.mod_eq_of_lt (by norm_num at h ⊢; omega)]

theorem and31_eq_mod (a : Nat) : a &&& 31 = a % 32 := by
  have h2 := Nat.and_pow_two_sub_one_eq_mod a 5
  norm_num at h2
  exact h2

theorem xor_shiftLeft_add {b k : Nat} (hb : b < 2 ^ k) (a : Nat) :
    (a <<< k) ^^^ b = 2 ^ k * a + b := by
  apply Nat.eq_of_testBit_eq
  intro i
  rw [Nat.testBit_xor, Nat.testBit_mul_pow_two_add a hb i, Nat.testBit_shiftLeft]
  by_cases h : i < k
  · simp [h, show ¬ (i ≥ k) from by omega]
  · have hbi : b.testBit i = false :=
      Nat.testBit_lt_two_pow (lt_of_lt_of_le hb (Nat.pow_le_pow_right (by norm_num) (by omega)))
    simp [h, show i ≥ k from by omega, hbi]

theorem polymodStep_xor_v (chk v : Nat) : polymodStep chk v = polymodStep chk 0 ^^^ v := by
  simp only [polymodStep, Nat.xor_zero]
  simp [Nat.xor_assoc, Nat.xor_comm, nat_xor_left_comm]

theorem polymodStep_xor_delta {d : Nat} (hd : d < 2 ^ 25) (chk v : Nat) :
    polymodStep (chk ^^^ d) v = polymodStep chk v ^^^ (d <<< 5) := by
  have hb : (chk ^^^ d) >>> 25 = chk >>> 25 := by
    rw [xor_shiftRight_dist, shiftRight_eq_zero_of_lt hd, Nat.xor_zero]
  have hmask : (chk ^^^ d) &&& 0x1ffffff = (chk &&& 0x1ffffff) ^^^ d := by
    rw [xor_and_dist, and_mask25_of_lt hd]
  simp only [polymodStep, hb, hmask, xor_shiftLeft_dist]
  simp [Nat.xor_assoc, Nat.xor_comm, nat_xor_left_comm]

theorem polymodStep_lt {v : Nat} (chk : Nat) (hv : v < 2 ^ 30) : polymodStep chk v < 2 ^ 30 := by
  simp only [polymodStep]
  have hx : ((chk &&& 0x1ffffff) <<< 5) < 2 ^ 30 := by
    have h := Nat.and_le_right (n := chk) (m := 0x1ffffff)
    rw [Nat.shiftLeft_eq]
    norm_num at h ⊢
    omega
  refine Nat.xor_lt_two_pow (Nat.xor_lt_two_pow (Nat.xor_lt_two_pow (Nat.xor_lt_two_pow
    (Nat.xor_lt_two_pow (Nat.xor_lt_two_pow hx hv) ?_) ?_) ?_) ?_) ?_ <;>
    split <;> norm_num

theorem bech32Polymod_lt {values : List Nat} (hv : ∀ v ∈ values, v < 2 ^ 30) :
    bech32Polymod values < 2 ^ 30 := by
  unfold bech32Polymod
  have main : ∀ (l : List Nat) (acc : Nat), acc < 2 ^ 30 → (∀ v ∈ l, v < 2 ^ 30) →
      List.foldl polymodStep acc l < 2 ^ 30 := by
    intro l
    induction l with
    | nil => intro acc hacc _; simpa using hacc
    | cons x xs ih =>
      intro acc hacc hl
      simp only [List.foldl_cons]
      exact ih _ (polymodStep_lt _ (hl x (by simp))) (fun v hv2 => hl v (by simp [hv2]))
  exact main values 1 (by norm_num) hv

/-- The checksum values of `createChecksum`, written out. -/
def checksumVals (vs : List Nat) : List Nat :=
  let pm := bech32Polymod (vs ++ [0, 0, 0, 0, 0, 0]) ^^^ BECH32M_CONST
  [(pm >>> 25) &&& 31, (pm >>> 20) &&& 31, (pm >>> 15) &&& 31,
   (pm >>> 10) &&& 31, (pm >>> 5) &&& 31, (pm >>> 0) &&& 31]

theorem createChecksum_eq (hrp : List Char) (data : List Nat) :
    createChecksum hrp data = checksumVals (hrpExpand hrp ++ data) := by
  unfold createChecksum checksumVals
  norm_num [List.range_succ]

theorem checksumVals_lt {vs : List Nat} {c : Nat} (h : c ∈ checksumVals vs) : c < 32 := by
  simp only [checksumVals, List.mem_cons, List.not_mem_nil, or_false] at h
  rcases h with rfl | rfl | rfl | rfl | rfl | rfl <;>
    (rw [and31_eq_mod]; exact Nat.mod_lt _ (by norm_num))

theorem polymod_append_checksum (vs : List Nat) (hvs : ∀ v ∈ vs, v < 2 ^ 30) :
    bech32Polymod (vs ++ checksumVals vs) = BECH32M_CONST := by
  have hzlt : ∀ v ∈ vs ++ [0, 0, 0, 0, 0, 0], v < 2 ^ 30 := by
    intro v hv
    rcases List.mem_append.mp hv with h | h
    · exact hvs v h
    · simp at h; omega
  set pm := bech32Polymod (vs ++ [0, 0, 0, 0, 0, 0]) ^^^ BECH32M_CONST with hpm
  have hP0lt : bech32Polymod (vs ++ [0, 0, 0, 0, 0, 0]) < 2 ^ 30 := bech32Polymod_lt hzlt
  have hpmlt : pm < 2 ^ 30 := by
    rw [hpm]
    exact Nat.xor_lt_two_pow hP0lt (by norm_num [BECH32M_CONST])
  -- the six checksum values
  set c1 := (pm >>> 25) &&& 31 with hc1
  set c2 := (pm >>> 20) &&& 31 with hc2
  set c3 := (pm >>> 15) &&& 31 with hc3
  set c4 := (pm >>> 10) &&& 31 with hc4
  set c5 := (pm >>> 5) &&& 31 with hc5
  set c6 := (pm >>> 0) &&& 31 with hc6
  have hb1 : c1 < 32 := by rw [hc1, and31_eq_mod]; exact Nat.mod_lt _ (by norm_num)
  have hb2 : c2 < 32 := by rw [hc2, and31_eq_mod]; exact Nat.mod_lt _ (by norm_num)
  have hb3 : c3 < 32 := by rw [hc3, and31_eq_mod]; exact Nat.mod_lt _ (by norm_num)
  have hb4 : c4 < 32 := by rw [hc4, and31_eq_mod]; exact Nat.mod_lt _ (by norm_num)
  have hb5 : c5 < 32 := by rw [hc5, and31_eq_mod]; exact Nat.mod_lt _ (by norm_num)
  have hb6 : c6 < 32 := by rw [hc6, and31_eq_mod]; exact Nat.mod_lt _ (by norm_num)
  have hcs : checksumVals vs = [c1, c2, c3, c4, c5, c6] := rfl
  -- abbreviate the zero-fed accumulators
  set A0 := bech32Polymod vs with hA0
  set A1 := polymodStep A0 0 with hA1
  set A2 := polymodStep A1 0 with hA2
  set A3 := polymodStep A2 0 with hA3
  set A4 := polymodStep A3 0 with hA4
  set A5 := polymodStep A4 0 with hA5
  set A6 := polymodStep A5 0 with hA6
  have hP0 : bech32Polymod (vs ++ [0, 0, 0, 0, 0, 0]) = A6 := by
    unfold bech32Polymod
    rw [List.foldl_append]
    simp only [List.foldl_cons, List.foldl_nil]
    rw [hA6, hA5, hA4, hA3, hA2, hA1, hA0]
    rfl
  -- the running deltas
  set D2 := 32 * c1 + c2 with hD2
  set D3 := 32 * D2 + c3 with hD3
  set D4 := 32 * D3 + c4 with hD4
  set D5 := 32 * D4 + c5 with hD5
  set D6 := 32 * D5 + c6 with hD6
  have hd1 : c1 < 2 ^ 5 := by norm_num; omega
  have hd2 : D2 < 2 ^ 10 := by rw [hD2]; norm_num at hd1 ⊢; omega
  have hd3 : D3 < 2 ^ 15 := by rw [hD3]; norm_num at hd2 ⊢; omega
  have hd4 : D4 < 2 ^ 20 := by rw [hD4]; norm_num at hd3 ⊢; omega
  have hd5 : D5 < 2 ^ 25 := by rw [hD5]; norm_num at hd4 ⊢; omega
  have hlt25 : ∀ {x : Nat} {k : Nat}, x < 2 ^ k → k ≤ 25 → x < 2 ^ 25 :=
    fun hx hk => lt_of_lt_of_le hx (Nat.pow_le_pow_right (by norm_num) hk)
  -- step the six values through the polynomial
  have step1 : polymodStep A0 c1 = A1 ^^^ c1 := by
    rw [polymodStep_xor_v, ← hA1]
  have step2 : polymodStep (A1 ^^^ c1) c2 = A2 ^^^ D2 := by
    rw [polymodStep_xor_delta (hlt25 hd1 (by norm_num)) A1 c2, polymodStep_xor_v, ← hA2,
      Nat.xor_assoc, Nat.xor_comm c2, xor_shiftLeft_add (show c2 < 2 ^ 5 from by omega) c1]
    norm_num [hD2]
  have step3 : polymodStep (A2 ^^^ D2) c3 = A3 ^^^ D3 := by
    rw [polymodStep_xor_delta (hlt25 hd2 (by norm_num)) A2 c3, polymodStep_xor_v, ← hA3,
      Nat.xor_assoc, Nat.xor_comm c3, xor_shiftLeft_add (show c3 < 2 ^ 5 from by omega) D2]
    norm_num [hD3]
  have step4 : polymodStep (A3 ^^^ D3) c4 = A4 ^^^ D4 := by
    rw [polymodStep_xor_delta (hlt25 hd3 (by norm_num)) A3 c4, polymodStep_xor_v, ← hA4,
      Nat.xor_assoc, Nat.xor_comm c4, xor_shiftLeft_add (show c4 < 2 ^ 5 from by omega) D3]
    norm_num [hD4]
  have step5 : polymodStep (A4 ^^^ D4) c5 = A5 ^^^ D5 := by
    rw [polymodStep_xor_delta (hlt25 hd4 (by norm_num)) A4 c5, polymodStep_xor_v, ← hA5,
      Nat.xor_assoc, Nat.xor_comm c5, xor_shiftLeft_add (show c5 < 2 ^ 5 from by omega) D4]
    norm_num [hD5]
  have step6 : polymodStep (A5 ^^^ D5) c6 = A6 ^^^ D6 := by
    rw [polymodStep_xor_delta (hlt25 hd5 (by norm_num)) A5 c6, polymodStep_xor_v, ← hA6,
      Nat.xor_assoc, Nat.xor_comm c6, xor_shiftLeft_add (show c6 < 2 ^ 5 from by omega) D5]
    norm_num [hD6]
  -- the fold over the checksum values
  have hfold : bech32Polymod (vs ++ [c1, c2, c3, c4, c5, c6]) = A6 ^^^ D6 := by
    unfold bech32Polymod
    rw [List.foldl_append]
    simp only [List.foldl_cons, List.foldl_nil]
    rw [show List.foldl polymodStep 1 vs = A0 from rfl, step1, step2, step3, step4, step5, step6]
  -- the deltas reassemble the residue
  have hD6pm : D6 = pm := by
    rw [hD6, hD5, hD4, hD3, hD2, hc1, hc2, hc3, hc4, hc5, hc6]
    simp only [and31_eq_mod, Nat.shiftRight_eq_div_pow]
    norm_num
    omega
  rw [hcs, hfold, hD6pm, hpm]
  rw [hP0]
  rw [← Nat.xor_assoc, Nat.xor_self, Nat.zero_xor]

/-! ### The bech32m round trip -/

theorem createChecksum_length (hrp : List Char) (data : List Nat) :
    (createChecksum hrp data).length = 6 := by
  simp [createChecksum]

theorem base32ToBytes_bytesToBase32 {bs : List Nat} (hb : ∀ b ∈ bs, b < 256) :
    base32ToBytes (bytesToBase32 bs) = some bs := by
  have hflat : (bytesToBase32 bs).flatMap (natToBitsBE 5) = padBitsTo5 (bytesToBits bs) := by
    unfold bytesToBase32
    exact flatMap_groupBits (by norm_num) _ _ (le_refl _) (padBitsTo5_length_dvd _)
  set p := (5 - (bytesToBits bs).length % 5) % 5 with hp
  have hppad : padBitsTo5 (bytesToBits bs) = bytesToBits bs ++ List.replicate p false := rfl
  have hp5 : p < 5 := by omega
  have hblen : (bytesToBits bs).length = 8 * bs.length := bytesToBits_length bs
  have hlen : (padBitsTo5 (bytesToBits bs)).length = 8 * bs.length + p := by
    rw [hppad, List.length_append, List.length_replicate, hblen]
  simp only [base32ToBytes]
  rw [hflat, hlen]
  have hdiv : 8 * ((8 * bs.length + p) / 8) = (bytesToBits bs).length := by
    rw [hblen]; omega
  rw [hdiv, hppad, List.take_left, List.drop_left]
  rw [if_pos ⟨by rw [List.length_replicate]; omega, by simp⟩]
  rw [show bytesToBits bs = bs.flatMap (natToBitsBE 8) from rfl]
  rw [groupBitsAux_flatMap (by norm_num) bs _ hb (le_refl _)]

/-- C4: formatting any valid 32-byte `Hash32` yields a string that
starts with `token_1` (the prefix and the bech32m separator) and whose
bech32m-decoded payload is exactly the original 32 bytes. -/
theorem C4_bech32m_roundtrip (id : List Nat) (h32 : id.length = 32)
    (hb : ∀ b ∈ id, b < 256) :
    ∃ s, format_token_id id = some s ∧
      s.take 7 = "token_1".data ∧
      bech32Decode s = some ("token_".data, id) := by
  have hhrp : hrpParse "token_".data = some "token_".data := by decide
  have hlc : "token_".data.map asciiToLower = "token_".data := by decide
  have hlen : bech32EncodedLength "token_".data id = 65 := by
    unfold bech32EncodedLength
    rw [bytesToBase32_length, h32]
    rfl
  set data5 := bytesToBase32 id with hdata5
  set cs := createChecksum "token_".data data5 with hcsdef
  set chars := (data5 ++ cs).map bech32CharOf with hchars
  -- the encoder output
  have henc : format_token_id id = some ("token_".data ++ '1' :: chars) := by
    have key : format_token_id id = bech32Encode "token_".data id := by
      unfold format_token_id
      rw [hhrp]
    rw [key]
    simp only [bech32Encode]
    rw [if_neg (by rw [hlen]; norm_num)]
    rw [hlc]
  refine ⟨"token_".data ++ '1' :: chars, henc, ?_, ?_⟩
  · -- the string starts with the prefix and separator
    rw [show (7 : Nat) = "token_".data.length + 1 from rfl, List.take_append]
    rw [show ('1' :: chars).take 1 = ['1'] from rfl]
    decide
  · -- decoding
    have hmem32 : ∀ v ∈ data5 ++ cs, v < 32 := by
      intro v hv
      rcases List.mem_append.mp hv with h | h
      · exact bytesToBase32_mem_lt (hdata5 ▸ h)
      · rw [hcsdef, createChecksum_eq] at h
        exact checksumVals_lt h
    have hone : '1' ∉ chars := by
      intro hmem
      rw [hchars] at hmem
      simp only [List.mem_map] at hmem
      obtain ⟨v, _, hv⟩ := hmem
      exact bech32CharOf_ne_one v hv
    have hsplit : splitLastOne ("token_".data ++ '1' :: chars) = some ("token_".data, chars) :=
      splitLastOne_append hone _
    have hvals : charVals chars = some (data5 ++ cs) := by
      rw [hchars]
      exact charVals_map hmem32
    have hlen58 : (data5 ++ cs).length = 58 := by
      rw [List.length_append, hdata5, bytesToBase32_length, h32, hcsdef, createChecksum_length]
    have hbounds : ∀ v ∈ hrpExpand "token_".data ++ data5, v < 2 ^ 30 := by
      intro v hv
      rcases List.mem_append.mp hv with h | h
      · have : ∀ v ∈ hrpExpand "token_".data, v < 2 ^ 30 := by decide
        exact this v h
      · have := bytesToBase32_mem_lt (hdata5 ▸ h)
        omega
    have hck : bech32Polymod (hrpExpand "token_".data ++ (data5 ++ cs)) = BECH32M_CONST := by
      rw [← List.append_assoc, hcsdef, createChecksum_eq]
      exact polymod_append_checksum _ hbounds
    have htail : (data5 ++ cs).take ((data5 ++ cs).length - 6) = data5 := by
      rw [hlen58]
      rw [show (58 : Nat) - 6 = data5.length from by
        rw [hdata5, bytesToBase32_length, h32]]
      exact List.take_left _ _
    have hbytes : base32ToBytes data5 = some id := by
      rw [hdata5]
      exact base32ToBytes_bytesToBase32 hb
    simp only [bech32Decode]
    rw [hsplit]
    simp only [hhrp, hvals]
    rw [if_neg (by rw [hlen58]; norm_num), if_pos hck, hlen58]
    rw [show (58 : Nat) - 6 = (data5 ++ cs).length - 6 from by rw [hlen58], htail, hbytes]

/-- C4 witness: the round trip at the all-zero identifier. -/
theorem C4_bech32m_roundtrip_witness :
    ∃ s, format_token_id (List.replicate 32 0) = some s ∧
      s.take 7 = "token_1".data ∧
      bech32Decode s = some ("token_".data, List.replicate 32 0) :=
  C4_bech32m_roundtrip (List.replicate 32 0) (by decide) (by decide)

/-! ### Decimals sensitivity

The universally quantified form of the boundary-decimals property — that
`get_token_id w 0` and `get_token_id w 255` differ for every 32-byte
`w` — is equivalent to the absence of a SHA-256 collision between two
messages differing in their final byte, which is neither provable nor
refutable here. What is provable: the two hash input streams always
differ (in their final byte), and the digests differ at concrete spot
checks. -/

theorem get_token_id_input_bytes_differ (w : List Nat) :
    w ++ (tokenName w).map Char.toNat ++ [0] ≠ w ++ (tokenName w).map Char.toNat ++ [255] := by
  intro h
  have := List.append_inj_right h (by rfl)
  simp at this

set_option maxRecDepth 4096 in
theorem get_token_id_decimals_spot_check :
    get_token_id (List.replicate 32 0) 0 ≠ get_token_id (List.replicate 32 0) 255 := by
  decide
